import Mathlib

/-!
bfs: parallel path-substring search over a directory tree

A shallow embedding of `main.go` and the properties of its partitioner
(`chunk`, `randInt`), its search worker (`search`, `getTargets`, `contains`),
its collector (`handleStream`) and its completion protocol (`main`, `process`).

Conventions of the embedding.

* Go `int` values that occur in `chunk` are lengths, indices and draws of
  `rand.Intn`; they are non-negative and far below `2^63`, so they are natural
  numbers here and no arithmetic wraps.  Only the argument of `rand.Intn` keeps
  the type `Int`, because the library call fails on a non-positive argument.
* A Go `string` is rendered as a Lean `String`; `strings.Contains` is the
  substring test on the underlying character sequence.
* Randomness is an explicit argument: the raw values the generator hands out,
  in the order they are consumed.
* The file system is an explicit argument: the answers of `os.ReadDir` and of
  `isFile` for every path.
-/

namespace Bfs

/-! ## Partitioner: `randInt` and `chunk` -/

/-- How a call of the partitioner ends. -/
inductive Outcome (α : Type) where
  /-- the call returns a value -/
  | ret (a : α)
  /-- the call raises a run-time panic -/
  | panicked
  /-- the call is still looping when the supplied draws (or steps) are used up -/
  | looping
  deriving DecidableEq, Repr

/-- `rand.Intn(max)`: fails for `max ≤ 0`, otherwise maps the raw value `r` of the
generator into `[0, max)`. -/
def Intn (max : Int) (r : Nat) : Outcome Nat :=
  if max ≤ 0 then .panicked else .ret (r % max.toNat)

/-- `randInt(max)`: draw with `rand.Intn(max)` until the draw is not `0`.
`draws` are the raw values of the generator, one per iteration. -/
def randInt (max : Int) : List Nat → Outcome Nat
  | [] => .looping
  | r :: rest =>
    match Intn max r with
    | .ret n => if n ≠ 0 then .ret n else randInt max rest
    | .panicked => .panicked
    | .looping => .looping

/-- `int(math.Ceil(float64(k)))` for an `int` value `k ≥ 0`: the conversion to
`float64` is exact below `2^53` (a `[]File` cannot be longer), the ceiling of an
integral float is the float itself, and the conversion back is exact. -/
def ceilFloat64 (k : Nat) : Nat := k

/-- The slice expression `arr[i:end]`. -/
def slice {α : Type} (arr : List α) (i end_ : Nat) : List α :=
  (arr.take end_).drop i

/-- The `for i := 0; i < len(arr); i += size` loop of `chunk`, started at `i` with
the chunks collected so far.  `fuel` bounds the number of iterations. -/
def chunkLoop {α : Type} (arr : List α) (size : Nat) :
    Nat → Nat → List (List α) → Outcome (List (List α))
  | 0, i, chunks => if i < arr.length then .looping else .ret chunks
  | fuel + 1, i, chunks =>
    if i < arr.length then
      let end_ := if i + size > arr.length then arr.length else i + size
      chunkLoop arr size fuel (i + size) (chunks ++ [slice arr i end_])
    else .ret chunks

/-- `chunk(arr)`.  The loop gets `len(arr)` iterations, which is enough whenever
the step `size` is positive (`chunkLoop_fuel`); with `size = 0` the loop of the
source never advances. -/
def chunk {α : Type} (arr : List α) (draws : List Nat) : Outcome (List (List α)) :=
  if arr.length = 0 then .ret []
  else
    match randInt (ceilFloat64 (arr.length / 2)) draws with
    | .ret noOfChunks =>
      if noOfChunks = 0 then .panicked
      else
        let size := ceilFloat64 (arr.length / noOfChunks)
        chunkLoop arr size arr.length 0 []
    | .panicked => .panicked
    | .looping => .looping

/-! ## Library functions used by the search: `strings.Contains`, `filepath.Join` -/

namespace strings

/-- Substring test on character sequences: `substr` starts at some position of `s`. -/
def containsChars : List Char → List Char → Bool
  | [], substr => substr.isEmpty
  | c :: s, substr => substr.isPrefixOf (c :: s) || containsChars s substr

/-- `strings.Contains(s, substr)`. -/
def Contains (s substr : String) : Bool := containsChars s.data substr.data

end strings

namespace filepath

/-- Split a path at every separator `/`. -/
def splitSep : List Char → List (List Char)
  | [] => [[]]
  | c :: cs =>
    if c = '/' then [] :: splitSep cs
    else
      match splitSep cs with
      | [] => [[c]]
      | e :: es => (c :: e) :: es

/-- One path element as `filepath.Clean` processes it: empty elements and `.` are
dropped, `..` removes the element before it (or is kept in front of a relative
path, or dropped in front of a rooted one), any other element is kept. -/
def cleanStep (rooted : Bool) (out : List (List Char)) (e : List Char) : List (List Char) :=
  if e = [] ∨ e = ['.'] then out
  else if e = ['.', '.'] then
    match out.getLast? with
    | none => if rooted then out else out ++ [e]
    | some top =>
      if top = ['.', '.'] then (if rooted then out else out ++ [e]) else out.dropLast
  else out ++ [e]

/-- Path elements joined with the separator. -/
def joinSep : List (List Char) → List Char
  | [] => []
  | [e] => e
  | e :: es => e ++ '/' :: joinSep es

/-- Elements of a cleaned path put together again. -/
def render (rooted : Bool) (elems : List (List Char)) : List Char :=
  if rooted then '/' :: joinSep elems else joinSep elems

/-- `filepath.Clean(path)` on Unix: the shortest path equivalent to `path` by
purely lexical processing. -/
def Clean (path : String) : String :=
  if path = "" then "."
  else
    let rooted : Bool := decide (path.data.head? = some '/')
    let out := render rooted ((splitSep path.data).foldl (cleanStep rooted) [])
    if out = [] then "." else ⟨out⟩

/-- `filepath.Join(dir, name)`: the non-empty elements joined with `/`, cleaned. -/
def Join (dir name : String) : String :=
  if dir ≠ "" then Clean (dir ++ "/" ++ name)
  else if name ≠ "" then Clean name
  else ""

/-- A path element that `Clean` keeps as it is. -/
def Real (e : List Char) : Prop :=
  e ≠ [] ∧ '/' ∉ e ∧ e ≠ ['.'] ∧ e ≠ ['.', '.']

/-- The element lists `Clean` can end with: `..` elements only in front, and
none in a rooted path; all other elements are real. -/
inductive Kept (rooted : Bool) : List (List Char) → Prop where
  | nil : Kept rooted []
  | real (out : List (List Char)) (e : List Char) :
      Kept rooted out → Real e → Kept rooted (out ++ [e])
  | dots (out : List (List Char)) :
      rooted = false → Kept rooted out →
      (out.getLast? = none ∨ out.getLast? = some ['.', '.']) →
      Kept rooted (out ++ [['.', '.']])

/-- A path `Clean` has produced from at least one kept element. -/
def IsClean (p : String) : Prop :=
  ∃ rooted out, Kept rooted out ∧ out ≠ [] ∧ p.data = render rooted out

end filepath

/-! ## Data model -/

/-- `FileType`: the source uses the two constants only. -/
inductive FileType where
  | TypeDirectory
  | TypeFile
  deriving DecidableEq, Repr

open FileType

/-- `File`: one entry found in a listing. The field `Typ` is `Type` in the source. -/
structure File where
  Name : String
  Path : String
  Typ : FileType
  deriving DecidableEq, Repr

/-- What `os.ReadDir` reports of one child: `Name()` and `IsDir()`. -/
structure DirEntry where
  Name : String
  IsDir : Bool
  deriving DecidableEq, Repr

/-- The file system as the program sees it: the answer of `os.ReadDir` for every
path (the entries, or an I/O error with its message) and the answer of `isFile`
(`os.Stat` succeeds and the path is not a directory). -/
structure FileSys where
  ReadDir : String → Except String (List DirEntry)
  isFile : String → Bool

/-! ## Directory lister: `getTargets` -/

/-- Result of `getTargets`: the entries, the error of `os.ReadDir`, or the process
has left through `exit` (`os.Exit(1)`). -/
inductive Targets where
  | ok (targets : List File)
  | err (msg : String)
  | exited
  deriving DecidableEq, Repr

/-- `contains(path, query)`. -/
def contains (path query : String) : Bool := strings.Contains path query

/-- The `File` that the loop of `getTargets` appends for one `os.DirEntry`. -/
def mkTarget (root : String) (file : DirEntry) : File :=
  { Name := file.Name
    Path := filepath.Join root file.Name
    Typ := if file.IsDir then TypeDirectory else TypeFile }

/-- `getTargets(root)`. -/
def getTargets (fs : FileSys) (root : String) : Targets :=
  if fs.isFile root then .exited
  else
    match fs.ReadDir root with
    | .error e => .err e
    | .ok files => .ok (files.map (mkTarget root))

/-! ## Search worker: `search` -/

/-- How a call of `search` ends, with the entries it has sent on `stream`, in
order: it returns, or the process has left through `exit` inside `getTargets`,
or the recursion is deeper than the fuel allows. -/
inductive SearchRun where
  | done (sent : List File)
  | exited (sent : List File)
  | outOfFuel
  deriving DecidableEq, Repr

/-- Put entries sent earlier in front of those of a later part of the run. -/
def SearchRun.after (sent : List File) : SearchRun → SearchRun
  | .done s => .done (sent ++ s)
  | .exited s => .exited (sent ++ s)
  | .outOfFuel => .outOfFuel

/-- The `for _, path := range paths` loop of `search`; `recur` is the recursive
call `search(*subPaths)`.  `warn` only prints and is not recorded. -/
def searchLoop (fs : FileSys) (query : String) (recur : List File → SearchRun) :
    List File → SearchRun
  | [] => .done []
  | path :: rest =>
    let sent := if contains path.Path query then [path] else []
    if path.Typ = TypeDirectory then
      match getTargets fs path.Path with
      | .exited => .exited sent
      | .err _ => (searchLoop fs query recur rest).after sent
      | .ok subPaths =>
        match recur subPaths with
        | .done s => (searchLoop fs query recur rest).after (sent ++ s)
        | .exited s => .exited (sent ++ s)
        | .outOfFuel => .outOfFuel
    else (searchLoop fs query recur rest).after sent

/-- `search(paths)`. `fuel` bounds the depth of the recursion: a call on a
non-empty listing uses one unit, a call on an empty listing returns at once. -/
def search (fs : FileSys) (query : String) : Nat → List File → SearchRun
  | _, [] => .done []
  | 0, _ :: _ => .outOfFuel
  | fuel + 1, path :: rest => searchLoop fs query (search fs query fuel) (path :: rest)

/-! ## Specification side: the tree under a directory -/

/-- Entries of the listing of `f` when `f` is a directory that can be read. -/
def children (fs : FileSys) (f : File) : List File :=
  if f.Typ = TypeDirectory then
    match getTargets fs f.Path with
    | .ok listing => listing
    | _ => []
  else []

/-- Pre-order depth-first traversal of `paths` and of the readable subtrees below
them, down to `depth` levels: every entry, followed by the traversal of its
listing, followed by the entries after it. -/
def preorder (fs : FileSys) : Nat → List File → List File
  | _, [] => []
  | 0, _ :: _ => []
  | depth + 1, f :: rest =>
    (f :: rest).flatMap (fun g => g :: preorder fs depth (children fs g))

/-- The entries under `root`: its immediate children and everything listed in a
readable directory that is itself under `root`. -/
inductive Under (fs : FileSys) (root : String) : File → Prop where
  | child {listing : List File} {f : File} :
      getTargets fs root = .ok listing → f ∈ listing → Under fs root f
  | descend {d f : File} {listing : List File} :
      Under fs root d → d.Typ = TypeDirectory → getTargets fs d.Path = .ok listing →
      f ∈ listing → Under fs root f

/-- A static directory tree: whatever a listing reports as a directory is a
directory (so `isFile` is false on it) and lies strictly lower in the tree than
the directory listed, as measured by `height`. -/
structure Static (fs : FileSys) (height : String → Nat) : Prop where
  isDir : ∀ dir entries e, fs.ReadDir dir = .ok entries → e ∈ entries → e.IsDir = true →
    fs.isFile (filepath.Join dir e.Name) = false
  lower : ∀ dir entries e, fs.ReadDir dir = .ok entries → e ∈ entries → e.IsDir = true →
    height (filepath.Join dir e.Name) < height dir

/-- The directories among `paths` are directories of height below `n`. -/
def Walkable (fs : FileSys) (height : String → Nat) (n : Nat) (paths : List File) : Prop :=
  ∀ f ∈ paths, f.Typ = TypeDirectory → fs.isFile f.Path = false ∧ height f.Path < n

/-- A name as a directory listing reports it: not empty, without separator, and
neither `.` nor `..`. -/
def ValidName (name : String) : Prop :=
  name.data ≠ [] ∧ '/' ∉ name.data ∧ name.data ≠ ['.'] ∧ name.data ≠ ['.', '.']

/-- Every listing of the tree reports valid names. -/
def ProperNames (fs : FileSys) : Prop :=
  ∀ dir entries e, fs.ReadDir dir = .ok entries → e ∈ entries → ValidName e.Name

/-- The path of `f` is built as `getTargets` builds it: a directory path joined
with a valid name. -/
def Built (f : File) : Prop :=
  ∃ parent name, ValidName name ∧ f.Path = filepath.Join parent name

/-- The same tree with the listing of `dir` replaced by an empty listing. -/
def withEmptyListing (fs : FileSys) (dir : String) : FileSys :=
  { fs with ReadDir := fun p => if p = dir then .ok [] else fs.ReadDir p }

/-- Arrival orders on the stream: `merged` takes, one at a time, the next entry
of one of the sequences `seqs` (one per worker), until all are used up. -/
inductive Interleaving {α : Type} : List (List α) → List α → Prop where
  | nil (seqs : List (List α)) : (∀ s ∈ seqs, s = []) → Interleaving seqs []
  | cons (before after : List (List α)) (x : α) (s merged : List α) :
      Interleaving (before ++ s :: after) merged →
      Interleaving (before ++ (x :: s) :: after) (x :: merged)

/-! ## A small tree for the examples

`/r` holds the files `apple.txt` and `banana.txt`, the directory `fruits` with
the file `apple-pie.txt`, and the directory `locked` that cannot be read. -/

/-- The listings of the example tree. -/
def demoFS : FileSys where
  ReadDir := fun p =>
    if p = "/r" then
      .ok [⟨"apple.txt", false⟩, ⟨"banana.txt", false⟩, ⟨"fruits", true⟩, ⟨"locked", true⟩]
    else if p = "/r/fruits" then .ok [⟨"apple-pie.txt", false⟩]
    else if p = "/r/locked" then .error "permission denied"
    else .error "no such file or directory"
  isFile := fun p =>
    p = "/r/apple.txt" ∨ p = "/r/banana.txt" ∨ p = "/r/fruits/apple-pie.txt"

/-- Heights in the example tree. -/
def demoHeight (p : String) : Nat :=
  if p = "/r" then 2 else if p = "/r/fruits" ∨ p = "/r/locked" then 1 else 0

/-- The listing of `/r` as `getTargets` builds it. -/
def demoListing : List File :=
  [⟨"apple.txt", "/r/apple.txt", TypeFile⟩, ⟨"banana.txt", "/r/banana.txt", TypeFile⟩,
   ⟨"fruits", "/r/fruits", TypeDirectory⟩, ⟨"locked", "/r/locked", TypeDirectory⟩]

/-! ## Collector: `handleStream` -/

/-- The colour codes `yellow` and `reset` of the source. -/
def yellow : String := "\x1b[33m"

/-- See `yellow`. -/
def reset : String := "\x1b[0m"

/-- The line `warn(msg)` prints. -/
def warnLine (msg : String) : String := yellow ++ msg ++ reset

/-- What the collector owns: the global `results`, the lines written to standard
output so far, and how often `done <- true` has been executed. -/
structure Collector where
  results : List File
  printed : List String
  doneSignals : Nat
  deriving DecidableEq, Repr

/-- The state at program start: `results = []File{}`, nothing printed. -/
def Collector.init : Collector := { results := [], printed := [], doneSignals := 0 }

/-- The body of the loop of `handleStream` for one received entry `res`.
`marshal` stands for `json.Marshal`. -/
def handleEntry (asJson : Bool) (marshal : File → Except String String)
    (st : Collector) (res : File) : Collector :=
  let st := { st with results := st.results ++ [res] }
  if asJson then
    match marshal res with
    | .error err =>
      { st with printed := st.printed ++ [warnLine ("Error marshalling " ++ res.Path ++ ": " ++ err)] }
    | .ok json => { st with printed := st.printed ++ [json] }
  else { st with printed := st.printed ++ ["[+] " ++ res.Path] }

/-- `handleStream()`: `received` are the entries the receive on `stream` yields,
in order, before it reports the stream closed; then `done <- true`. -/
def handleStream (asJson : Bool) (marshal : File → Except String String) :
    List File → Collector → Collector
  | [], st => { st with doneSignals := st.doneSignals + 1 }
  | res :: more, st => handleStream asJson marshal more (handleEntry asJson marshal st res)

/-- The line the JSON mode prints for an entry: its encoding, or the warning. -/
def jsonLine (marshal : File → Except String String) (res : File) : String :=
  match marshal res with
  | .error err => warnLine ("Error marshalling " ++ res.Path ++ ": " ++ err)
  | .ok json => json

/-! ## Completion protocol: `main`, `process`, the closing goroutine

The goroutines of one search as a transition system.  A state records where
each goroutine stands; a step is one goroutine executing its next statement, so
the executions of the system are the interleavings of the goroutines.

* `stream` and `done` are unbuffered channels: a send and a receive happen
  together, in one step; a send on a closed channel and a second `close` panic;
  a receive on a closed channel reports `ok = false`.
* `wg.Add(1)` and `wg.Done()` add 1 to and subtract 1 from the counter of the
  `sync.WaitGroup`; `wg.Wait()` proceeds when the counter is 0.
* A worker is represented by the run of its call of `search`: the entries it
  sends, in order, and whether the call then returns, so that the deferred
  `wg.Done()` runs, or leaves the process through `exit` in `getTargets`
  (`os.Exit(1)`).
* A panic and `os.Exit` end the program: a panicked or exited state has no step.
-/

/-- What a worker has to do: the entries its call of `search` sends, and whether
the call then leaves the process through `exit` instead of returning. -/
structure Job where
  toSend : List File
  exits : Bool
  deriving DecidableEq, Repr

/-- Where the main goroutine stands, from `process(&chunks, &wg)` on. -/
inductive MainPc where
  /-- in the loop of `process`, with the chunks still to be handed out -/
  | spawning (rest : List Job)
  /-- before `go handleStream()` -/
  | startCollector
  /-- before `go func() { wg.Wait(); defer close(stream) }()` -/
  | startCloser
  /-- blocked in `<-done` -/
  | waitDone
  /-- past `<-done` -/
  | finished
  deriving DecidableEq, Repr

/-- One goroutine started by `process`. -/
inductive Worker where
  /-- inside `search(chunk)`, with the entries it has still to send and whether
  it then calls `exit` -/
  | running (toSend : List File) (exits : Bool)
  /-- past the deferred `wg.Done()` -/
  | finished
  deriving DecidableEq, Repr

/-- Where `handleStream` stands. -/
inductive CollectorPc where
  | notStarted
  /-- at `res, ok := <-stream` -/
  | receiving
  /-- out of the loop, at `done <- true` -/
  | signalling
  | finished
  deriving DecidableEq, Repr

/-- Where the closing goroutine stands. -/
inductive CloserPc where
  | notStarted
  /-- at `wg.Wait()` -/
  | waiting
  /-- past `wg.Wait()`, before the deferred `close(stream)` -/
  | closing
  | finished
  deriving DecidableEq, Repr

/-- State of one search. -/
structure Sys where
  main : MainPc
  workers : List Worker
  collector : CollectorPc
  closer : CloserPc
  /-- counter of the `sync.WaitGroup` -/
  wg : Int
  /-- how often `close(stream)` has been executed; the stream is closed when positive -/
  closes : Nat
  /-- the global `results` -/
  results : List File
  /-- how often `done <- true` has been executed -/
  doneSignals : Nat
  panicked : Bool
  /-- the process has ended through `os.Exit(1)` -/
  exited : Bool

/-- The state in which `main` calls `process` on the chunks; `jobs` are, chunk
by chunk, the runs of `search` on them. -/
def Sys.init (jobs : List Job) : Sys :=
  { main := .spawning jobs, workers := [], collector := .notStarted, closer := .notStarted,
    wg := 0, closes := 0, results := [], doneSignals := 0, panicked := false,
    exited := false }

/-- The entries a worker has still to send. -/
def Worker.pending : Worker → List File
  | .running toSend _ => toSend
  | .finished => []

/-- The chunks `process` has still to hand out. -/
def MainPc.unspawned : MainPc → List Job
  | .spawning rest => rest
  | _ => []

/-- How far `main` has come. -/
def MainPc.phase : MainPc → Nat
  | .spawning _ => 0
  | .startCollector => 1
  | .startCloser => 2
  | .waitDone => 3
  | .finished => 4

/-- What holds in every reachable state. -/
structure Inv (jobs : List Job) (s : Sys) : Prop where
  noPanic : s.panicked = false
  counter : s.wg = ((s.workers.filter (fun w => w ≠ .finished)).length : Int)
  collectorStart : s.collector = .notStarted ↔ s.main.phase ≤ 1
  closerStart : s.closer = .notStarted ↔ s.main.phase ≤ 2
  afterWait : s.closer = .closing ∨ s.closer = .finished → ∀ w ∈ s.workers, w = .finished
  closed : s.closes = if s.closer = .finished then 1 else 0
  afterClose : s.collector = .signalling ∨ s.collector = .finished → s.closer = .finished
  signalled : s.doneSignals = if s.collector = .finished then 1 else 0
  mainDone : s.main = .finished ↔ s.collector = .finished
  allJobs : s.workers.length + s.main.unspawned.length = jobs.length
  nothingLost : (s.results ++ (s.workers.flatMap Worker.pending
      ++ s.main.unspawned.flatMap Job.toSend)).Perm (jobs.flatMap Job.toSend)

theorem randInt_ret_bounds (max : Int) (draws : List Nat) (n : Nat)
    (h : randInt max draws = .ret n) : 1 ≤ n ∧ (n : Int) < max := by
  induction draws with
  | nil => simp [randInt] at h
  | cons r rest ih =>
    unfold randInt Intn at h
    by_cases hm : max ≤ 0
    · simp [hm] at h
    · simp only [hm, if_false] at h
      by_cases h0 : r % max.toNat = 0
      · simp only [h0, ne_eq, not_true_eq_false, if_false] at h
        exact ih h
      · simp only [ne_eq, h0, not_false_eq_true, if_true, Outcome.ret.injEq] at h
        subst h
        have hpos : 0 < max.toNat := by omega
        have := Nat.mod_lt r hpos
        omega

theorem randInt_single (max : Int) (n : Nat) (h1 : 1 ≤ n) (h2 : (n : Int) < max) :
    randInt max [n] = .ret n := by
  have hm : ¬ max ≤ 0 := by omega
  have hlt : n < max.toNat := by omega
  have hmod : n % max.toNat = n := Nat.mod_eq_of_lt hlt
  have hn : n ≠ 0 := by omega
  simp [randInt, Intn, hm, hmod, hn]

/-- With a positive step the loop of `chunk` finishes within `len(arr) - i`
iterations; it appends chunks that tile `arr[i:]`: none is empty, all but the
last have `size` entries and the last has at most `size`. -/
theorem chunkLoop_fuel {α : Type} (arr : List α) (size : Nat) (hs : 0 < size) :
    ∀ (fuel i : Nat) (chunks : List (List α)), arr.length ≤ i + fuel →
      ∃ r, chunkLoop arr size fuel i chunks = .ret (chunks ++ r) ∧
        r.flatten = arr.drop i ∧ (∀ c ∈ r, c ≠ []) ∧
        arr.length - i ≤ r.length * size ∧ r.length * size < arr.length - i + size ∧
        (∀ c ∈ r.dropLast, c.length = size) ∧ (∀ c ∈ r.getLast?, c.length ≤ size) := by
  intro fuel
  induction fuel with
  | zero =>
    intro i chunks h
    refine ⟨[], ?_, ?_, ?_, ?_, ?_, ?_, ?_⟩
    · have : ¬ i < arr.length := by omega
      simp [chunkLoop, this]
    · have : arr.length ≤ i := by omega
      simp [List.drop_eq_nil_of_le this]
    · simp
    · simp; omega
    · simp; omega
    · simp
    · simp
  | succ fuel ih =>
    intro i chunks h
    by_cases hi : i < arr.length
    · obtain ⟨r, hr, hj, hne, hlo, hhi, hall, hlast⟩ :=
        ih (i + size) (chunks ++ [slice arr i (if i + size > arr.length then arr.length else i + size)])
          (by omega)
      have hslice : slice arr i (if i + size > arr.length then arr.length else i + size)
          = (arr.drop i).take size := by
        unfold slice
        by_cases hgt : i + size > arr.length
        · simp only [hgt, if_true, List.take_length]
          rw [List.take_of_length_le]
          simp; omega
        · simp only [hgt, if_false]
          rw [List.drop_take]
          simp
      have hr0 : arr.length ≤ i + size → r.length = 0 := by
        intro hle
        by_contra hne0
        have : size ≤ r.length * size := Nat.le_mul_of_pos_left size (by omega)
        omega
      refine ⟨((arr.drop i).take size) :: r, ?_, ?_, ?_, ?_, ?_, ?_, ?_⟩
      · rw [chunkLoop]
        simp only [hi, if_true]
        rw [hr, hslice]
        simp
      · simp only [List.flatten_cons, hj]
        rw [← List.drop_drop]
        exact List.take_append_drop size (arr.drop i)
      · intro c hc
        rcases List.mem_cons.1 hc with rfl | hc
        · intro hnil
          have := congrArg List.length hnil
          simp at this
          omega
        · exact hne c hc
      · simp only [List.length_cons]
        have : (r.length + 1) * size = r.length * size + size := by ring
        omega
      · simp only [List.length_cons]
        have : (r.length + 1) * size = r.length * size + size := by ring
        by_cases hle : arr.length ≤ i + size
        · have h0 := hr0 hle
          rw [this, h0]
          omega
        · omega
      · intro c hc
        cases r with
        | nil => simp at hc
        | cons c2 r2 =>
          simp only [List.dropLast_cons₂, List.mem_cons] at hc
          rcases hc with rfl | hc
          · have hlt : ¬ arr.length ≤ i + size := fun hle => by
              have := hr0 hle
              simp at this
            simp only [List.length_take, List.length_drop]
            omega
          · exact hall c hc
      · intro c hc
        cases r with
        | nil =>
          simp at hc
          subst hc
          simp
        | cons c2 r2 =>
          apply hlast
          simpa [List.getLast?_cons_cons] using hc
    · refine ⟨[], ?_, ?_, ?_, ?_, ?_, ?_, ?_⟩
      · simp [chunkLoop, hi]
      · have : arr.length ≤ i := by omega
        simp [List.drop_eq_nil_of_le this]
      · simp
      · simp; omega
      · simp; omega
      · simp
      · simp

/-- With step `0` the loop of `chunk` never leaves a non-empty array. -/
theorem chunkLoop_zero_size {α : Type} (arr : List α) :
    ∀ (fuel i : Nat) (chunks : List (List α)), i < arr.length →
      chunkLoop arr 0 fuel i chunks = .looping := by
  intro fuel
  induction fuel with
  | zero => intro i chunks h; simp [chunkLoop, h]
  | succ fuel ih =>
    intro i chunks h
    rw [chunkLoop]
    simp only [h, if_true, Nat.add_zero]
    exact ih i _ h

theorem randInt_one_loops (draws : List Nat) : randInt 1 draws = .looping := by
  induction draws with
  | nil => rfl
  | cons r rest ih =>
    unfold randInt Intn
    simp [Nat.mod_one, ih]

theorem randInt_nonpos_panics (max : Int) (hmax : max ≤ 0) (r : Nat) (draws : List Nat) :
    randInt max (r :: draws) = .panicked := by
  simp [randInt, Intn, hmax]

/-- What `chunk` does once `randInt` has returned `c`: the loop runs to its end
with step `len(arr) / c` (integer division), which is at least `2`. -/
theorem chunk_of_draw {α : Type} (arr : List α) (draws : List Nat) (c : Nat)
    (hc : randInt (ceilFloat64 (arr.length / 2)) draws = .ret c) :
    2 ≤ arr.length / c ∧
    ∃ chunks, chunk arr draws = .ret chunks ∧ chunks.flatten = arr ∧
      (∀ ch ∈ chunks, ch ≠ []) ∧
      arr.length ≤ chunks.length * (arr.length / c) ∧
      chunks.length * (arr.length / c) < arr.length + arr.length / c ∧
      (∀ ch ∈ chunks.dropLast, ch.length = arr.length / c) ∧
      (∀ ch ∈ chunks.getLast?, ch.length ≤ arr.length / c) := by
  obtain ⟨h1, h2⟩ := randInt_ret_bounds _ _ _ hc
  simp only [ceilFloat64] at h2
  have h2n : c < arr.length / 2 := by exact_mod_cast h2
  have hsize : 2 ≤ arr.length / c := by
    rw [Nat.le_div_iff_mul_le (by omega)]
    omega
  refine ⟨hsize, ?_⟩
  obtain ⟨r, hr, hj, hne, hlo, hhi, hall, hlast⟩ :=
    chunkLoop_fuel arr (arr.length / c) (by omega) arr.length 0 [] (by omega)
  refine ⟨r, ?_, ?_, hne, ?_, ?_, hall, hlast⟩
  · unfold chunk
    have hlen : ¬ arr.length = 0 := by omega
    have hc0 : ¬ c = 0 := by omega
    simp only [hlen, if_false, hc, hc0]
    simpa [ceilFloat64] using hr
  · simpa using hj
  · simpa using hlo
  · simpa using hhi

/-- The number of chunks never exceeds half the length rounded up. -/
theorem chunk_count_le_half_up {α : Type} (arr : List α) (draws : List Nat)
    (chunks : List (List α)) (hne : arr ≠ []) (h : chunk arr draws = .ret chunks) :
    2 * chunks.length ≤ arr.length + 1 := by
  have hlen : ¬ arr.length = 0 := by
    intro h0
    exact hne (List.length_eq_zero.1 h0)
  cases hc : randInt (ceilFloat64 (arr.length / 2)) draws with
  | ret c =>
    obtain ⟨hsize, r, hr, -, -, -, hhi, -, -⟩ := chunk_of_draw arr draws c hc
    rw [h] at hr
    cases hr
    have hmul : chunks.length * 2 ≤ chunks.length * (arr.length / c) :=
      Nat.mul_le_mul_left _ hsize
    cases hk : chunks.length with
    | zero => omega
    | succ k =>
      rw [hk] at hhi
      have e1 : (k + 1) * (arr.length / c) = k * (arr.length / c) + arr.length / c := by ring
      have e2 : k * 2 ≤ k * (arr.length / c) := Nat.mul_le_mul_left _ hsize
      omega
  | panicked => simp [chunk, hlen, hc] at h
  | looping => simp [chunk, hlen, hc] at h

/-- The partitioner evaluated on short inputs: four entries give one chunk,
three entries never leave the draw, one entry panics in the draw. -/
theorem chunk_eval :
    chunk (List.range 4) [1] = .ret [[0, 1, 2, 3]] ∧
    chunk (List.range 3) [1, 5, 3] = Outcome.looping ∧
    chunk (List.range 1) [1, 5, 3] = Outcome.panicked ∧
    chunk ([] : List Nat) [] = .ret [] := by
  decide

/-! ## Claims about the partitioner -/

/-- Partition coverage once the draw has returned: for a non-empty `arr` and any
chunk count `c` the random draw yields, `chunk` returns chunks whose
concatenation in order is `arr`; no chunk is empty, and there are at least 1 and
at most `len(arr)` chunks. -/
theorem chunk_partition {α : Type} (arr : List α) (draws : List Nat) (c : Nat)
    (hne : arr ≠ []) (hc : randInt (ceilFloat64 (arr.length / 2)) draws = .ret c) :
    ∃ chunks, chunk arr draws = .ret chunks ∧ chunks.flatten = arr ∧
      (∀ ch ∈ chunks, ch ≠ []) ∧ 1 ≤ chunks.length ∧ chunks.length ≤ arr.length := by
  obtain ⟨hsize, r, hr, hj, hnemp, hlo, hhi, -, -⟩ := chunk_of_draw arr draws c hc
  have hpos : 0 < arr.length := List.length_pos.2 hne
  refine ⟨r, hr, hj, hnemp, ?_, ?_⟩
  · by_contra h0
    have : r.length = 0 := by omega
    rw [this] at hlo
    omega
  · cases hk : r.length with
    | zero => omega
    | succ k =>
      rw [hk] at hhi
      have e1 : (k + 1) * (arr.length / c) = k * (arr.length / c) + arr.length / c := by ring
      have e2 : k * 1 ≤ k * (arr.length / c) := Nat.mul_le_mul_left _ (by omega)
      omega

/-- The partition of seven entries with the draw `2`. -/
theorem chunk_partition_witness :
    ([10, 20, 30, 40, 50, 60, 70] ≠ ([] : List Nat) ∧
      randInt (ceilFloat64 ([10, 20, 30, 40, 50, 60, 70].length / 2)) [0, 2] = .ret 2) ∧
    ∃ chunks, chunk [10, 20, 30, 40, 50, 60, 70] [0, 2] = .ret chunks ∧
      chunks.flatten = [10, 20, 30, 40, 50, 60, 70] ∧
      (∀ ch ∈ chunks, ch ≠ []) ∧ 1 ≤ chunks.length ∧
      chunks.length ≤ [10, 20, 30, 40, 50, 60, 70].length :=
  ⟨⟨by decide, by decide⟩,
    chunk_partition [10, 20, 30, 40, 50, 60, 70] [0, 2] 2 (by decide) (by decide)⟩

/-- From four entries on the partitioner works: some draw makes `chunk` return,
and whatever it returns is a partition of `arr` into between 1 and `len(arr)`
non-empty chunks. -/
theorem chunk_partition_from_four {α : Type} (arr : List α) (h4 : 4 ≤ arr.length) :
    (∃ draws chunks, chunk arr draws = .ret chunks) ∧
    ∀ draws chunks, chunk arr draws = .ret chunks →
      chunks.flatten = arr ∧ (∀ ch ∈ chunks, ch ≠ []) ∧
        1 ≤ chunks.length ∧ chunks.length ≤ arr.length := by
  have hne : arr ≠ [] := by
    intro h
    rw [h] at h4
    simp at h4
  have hlen : ¬ arr.length = 0 := by omega
  constructor
  · have hc : randInt (ceilFloat64 (arr.length / 2)) [1] = .ret 1 := by
      apply randInt_single
      · omega
      · simp only [ceilFloat64]
        have : 1 < arr.length / 2 := by omega
        exact_mod_cast this
    obtain ⟨chunks, hr, -⟩ := chunk_partition arr [1] 1 hne hc
    exact ⟨[1], chunks, hr⟩
  · intro draws chunks h
    cases hc : randInt (ceilFloat64 (arr.length / 2)) draws with
    | ret c =>
      obtain ⟨r, hr, hrest⟩ := chunk_partition arr draws c hne hc
      rw [h] at hr
      cases hr
      exact hrest
    | panicked => simp [chunk, hlen, hc] at h
    | looping => simp [chunk, hlen, hc] at h

theorem chunk_one_panics {α : Type} (arr : List α) (h1 : arr.length = 1) (r : Nat)
    (draws : List Nat) : chunk arr (r :: draws) = .panicked := by
  have : randInt (ceilFloat64 (arr.length / 2)) (r :: draws) = .panicked := by
    apply randInt_nonpos_panics
    simp [ceilFloat64, h1]
  have hlen : ¬ arr.length = 0 := by omega
  unfold chunk
  simp only [hlen, if_false, this]

theorem chunk_two_three_loops {α : Type} (arr : List α)
    (h23 : arr.length = 2 ∨ arr.length = 3) (draws : List Nat) :
    chunk arr draws = .looping := by
  have hmax : ((ceilFloat64 (arr.length / 2) : Nat) : Int) = 1 := by
    simp only [ceilFloat64]
    have : arr.length / 2 = 1 := by omega
    simp [this]
  have hlen : ¬ arr.length = 0 := by omega
  have := randInt_one_loops draws
  simp [chunk, hlen, hmax, this]

/-- C2 (partition coverage), evaluated on short inputs: on one entry the draw
`rand.Intn(0)` panics, on two and on three entries the draw `rand.Intn(1)` is
`0` for ever, so on these non-empty inputs `chunk` returns no chunks at all,
whatever the generator yields. -/
theorem chunk_fails_on_short_input :
    (∀ (r : Nat) (draws : List Nat), chunk (List.range 1) (r :: draws) = .panicked) ∧
    (∀ draws : List Nat, chunk (List.range 2) draws = .looping) ∧
    (∀ draws : List Nat, chunk (List.range 3) draws = .looping) ∧
    (∀ (draws : List Nat) (chunks : List (List Nat)),
      chunk (List.range 1) draws ≠ .ret chunks ∧ chunk (List.range 2) draws ≠ .ret chunks ∧
        chunk (List.range 3) draws ≠ .ret chunks) := by
  have h2 := fun draws => chunk_two_three_loops (List.range 2) (Or.inl rfl) draws
  have h3 := fun draws => chunk_two_three_loops (List.range 3) (Or.inr rfl) draws
  refine ⟨fun r draws => chunk_one_panics (List.range 1) rfl r draws, h2, h3, ?_⟩
  intro draws chunks
  refine ⟨?_, ?_, ?_⟩
  · cases draws with
    | nil =>
      have hnil : chunk (List.range 1) [] = .looping := by decide
      rw [hnil]
      exact fun h => Outcome.noConfusion h
    | cons r rest =>
      rw [chunk_one_panics (List.range 1) rfl r rest]
      exact fun h => Outcome.noConfusion h
  · rw [h2 draws]
    exact fun h => Outcome.noConfusion h
  · rw [h3 draws]
    exact fun h => Outcome.noConfusion h

/-- C7 (chunk-count bound), evaluated: on 11 entries with the draw `4` the step
is `11 / 4 = 2` and `chunk` returns 6 chunks, so twice the number of chunks is
12 and exceeds the 11 entries. -/
theorem chunk_count_exceeds_half :
    chunk (List.range 11) [4] = .ret [[0, 1], [2, 3], [4, 5], [6, 7], [8, 9], [10]] ∧
    ¬ (2 * [[0, 1], [2, 3], [4, 5], [6, 7], [8, 9], [10]].length ≤ (List.range 11).length) := by
  decide

/-- C8 (chunk-size policy), evaluated: on 7 entries with the draw `2` the runs
have `7 / 2 = 3` entries, not `ceil(7 / 2) = 4`: the result is three chunks of
sizes 3, 3, 1 where the stated policy gives two chunks of sizes 4, 3. -/
theorem chunk_size_is_floor :
    chunk (List.range 7) [2] = .ret [[0, 1, 2], [3, 4, 5], [6]] ∧
    (7 + 2 - 1) / 2 = 4 ∧ [0, 1, 2].length ≠ 4 := by
  decide

/-- C9 (domain of the partitioner): `randInt max` can return `n` exactly when
`1 ≤ n < max`, so it returns nothing for `max ≤ 1`; `chunk arr` can return
exactly when `len(arr) = 0` or `len(arr) ≥ 4`; for length 1 the draw panics, for
lengths 2 and 3 the draw loops whatever the generator yields. -/
theorem partitioner_domain :
    (∀ (max : Int) (n : Nat),
      (∃ draws, randInt max draws = .ret n) ↔ (1 ≤ n ∧ (n : Int) < max)) ∧
    (∀ (max : Int) (draws : List Nat) (n : Nat), max ≤ 1 → randInt max draws ≠ .ret n) ∧
    (∀ (α : Type) (arr : List α),
      (∃ draws chunks, chunk arr draws = .ret chunks) ↔ (arr.length = 0 ∨ 4 ≤ arr.length)) ∧
    (∀ (α : Type) (arr : List α) (r : Nat) (draws : List Nat),
      arr.length = 1 → chunk arr (r :: draws) = .panicked) ∧
    (∀ (α : Type) (arr : List α) (draws : List Nat),
      arr.length = 2 ∨ arr.length = 3 → chunk arr draws = .looping) := by
  refine ⟨?_, ?_, ?_, ?_, ?_⟩
  · intro max n
    constructor
    · rintro ⟨draws, h⟩
      exact randInt_ret_bounds max draws n h
    · rintro ⟨h1, h2⟩
      exact ⟨[n], randInt_single max n h1 h2⟩
  · intro max draws n hmax h
    have := randInt_ret_bounds max draws n h
    omega
  · intro α arr
    constructor
    · rintro ⟨draws, chunks, h⟩
      by_cases hlen : arr.length = 0
      · exact Or.inl hlen
      · right
        cases hc : randInt (ceilFloat64 (arr.length / 2)) draws with
        | ret c =>
          have hb := randInt_ret_bounds _ _ _ hc
          simp only [ceilFloat64] at hb
          have : c < arr.length / 2 := by exact_mod_cast hb.2
          omega
        | panicked => simp [chunk, hlen, hc] at h
        | looping => simp [chunk, hlen, hc] at h
    · rintro (h0 | h4)
      · exact ⟨[], [], by simp [chunk, h0]⟩
      · have hc : randInt (ceilFloat64 (arr.length / 2)) [1] = .ret 1 := by
          apply randInt_single
          · omega
          · simp only [ceilFloat64]
            have : 1 < arr.length / 2 := by omega
            exact_mod_cast this
        obtain ⟨-, chunks, hr, -⟩ := chunk_of_draw arr [1] 1 hc
        exact ⟨[1], chunks, hr⟩
  · intro α arr r draws h1
    have : randInt (ceilFloat64 (arr.length / 2)) (r :: draws) = .panicked := by
      apply randInt_nonpos_panics
      simp [ceilFloat64, h1]
    have hlen : ¬ arr.length = 0 := by omega
    unfold chunk
    simp only [hlen, if_false, this]
  · intro α arr draws h23
    have hmax : ((ceilFloat64 (arr.length / 2) : Nat) : Int) = 1 := by
      simp only [ceilFloat64]
      have : arr.length / 2 = 1 := by omega
      simp [this]
    have hlen : ¬ arr.length = 0 := by omega
    have := randInt_one_loops draws
    simp [chunk, hlen, hmax, this]

/-! ## Facts about the search -/

theorem after_nil (r : SearchRun) : SearchRun.after [] r = r := by
  cases r <;> simp [SearchRun.after]

theorem preorder_succ (fs : FileSys) (depth : Nat) (paths : List File) :
    preorder fs (depth + 1) paths
      = paths.flatMap (fun g => g :: preorder fs depth (children fs g)) := by
  cases paths with
  | nil => simp [preorder]
  | cons f rest => simp [preorder]

theorem preorder_append (fs : FileSys) (depth : Nat) (xs ys : List File) :
    preorder fs depth (xs ++ ys) = preorder fs depth xs ++ preorder fs depth ys := by
  cases depth with
  | zero =>
    cases xs <;> cases ys <;> simp [preorder]
  | succ d => simp [preorder_succ]

theorem preorder_flatten (fs : FileSys) (depth : Nat) (chunks : List (List File)) :
    preorder fs depth chunks.flatten = (chunks.map (preorder fs depth)).flatten := by
  induction chunks with
  | nil => cases depth <;> simp [preorder]
  | cons c cs ih => simp [preorder_append, ih]

theorem search_succ (fs : FileSys) (query : String) (fuel : Nat) (paths : List File) :
    search fs query (fuel + 1) paths = searchLoop fs query (search fs query fuel) paths := by
  cases paths with
  | nil => simp [search, searchLoop]
  | cons f rest => simp [search]

theorem Walkable.mono {fs : FileSys} {height : String → Nat} {n m : Nat} {paths : List File}
    (h : Walkable fs height n paths) (hnm : n ≤ m) : Walkable fs height m paths := by
  intro f hf hd
  obtain ⟨h1, h2⟩ := h f hf hd
  exact ⟨h1, by omega⟩

theorem Walkable.sublist {fs : FileSys} {height : String → Nat} {n : Nat}
    {paths part : List File} (h : Walkable fs height n paths) (hsub : ∀ f ∈ part, f ∈ paths) :
    Walkable fs height n part :=
  fun f hf hd => h f (hsub f hf) hd

/-- In a static tree the entries `getTargets` returns for `dir` are walkable
below the height of `dir`. -/
theorem getTargets_walkable {fs : FileSys} {height : String → Nat} (hs : Static fs height)
    {dir : String} {listing : List File} (h : getTargets fs dir = .ok listing) :
    Walkable fs height (height dir) listing := by
  unfold getTargets at h
  by_cases hf : fs.isFile dir = true
  · simp [hf] at h
  · have hf2 : fs.isFile dir = false := by simpa using hf
    cases hr : fs.ReadDir dir with
    | error e => simp [hf2, hr] at h
    | ok files =>
      simp only [hf2, hr, Targets.ok.injEq] at h
      simp only [Bool.false_eq_true, if_false, Targets.ok.injEq] at h
      subst h
      intro f hfm hd
      obtain ⟨e, he, rfl⟩ := List.mem_map.1 hfm
      have hdir : e.IsDir = true := by
        by_contra hne
        simp [mkTarget, hne] at hd
      exact ⟨hs.isDir dir files e hr he hdir, hs.lower dir files e hr he hdir⟩

theorem getTargets_ne_exited {fs : FileSys} {dir : String} (h : fs.isFile dir = false) :
    getTargets fs dir ≠ .exited := by
  unfold getTargets
  cases hr : fs.ReadDir dir <;> simp [h]

theorem children_walkable {fs : FileSys} {height : String → Nat} (hs : Static fs height)
    (g : File) : Walkable fs height (height g.Path) (children fs g) := by
  unfold children
  by_cases hd : g.Typ = TypeDirectory
  · simp only [hd, if_true]
    cases ht : getTargets fs g.Path with
    | ok listing => exact getTargets_walkable hs ht
    | err msg => intro f hf; simp at hf
    | exited => intro f hf; simp at hf
  · simp only [hd, if_false]
    intro f hf
    simp at hf

/-- The loop of `search` when every recursive call returns what `sub` says: it
returns the matching entries of the entries and of `sub` of their listings. -/
theorem searchLoop_done (fs : FileSys) (query : String) (recur : List File → SearchRun)
    (sub : List File → List File) :
    ∀ paths : List File,
      (∀ p ∈ paths, p.Typ = TypeDirectory → fs.isFile p.Path = false) →
      (∀ p ∈ paths, p.Typ = TypeDirectory → ∀ listing, getTargets fs p.Path = .ok listing →
        recur listing = .done ((sub listing).filter (fun f => contains f.Path query))) →
      (sub [] = []) →
      searchLoop fs query recur paths
        = .done ((paths.flatMap (fun g => g :: sub (children fs g))).filter
            (fun f => contains f.Path query)) := by
  intro paths
  induction paths with
  | nil => intro _ _ _; simp [searchLoop]
  | cons p rest ih =>
    intro hfile hrec hnil
    have ihr := ih (fun q hq => hfile q (List.mem_cons_of_mem _ hq))
      (fun q hq => hrec q (List.mem_cons_of_mem _ hq)) hnil
    rw [searchLoop, ihr]
    by_cases hd : p.Typ = TypeDirectory
    · have hnf := hfile p (List.mem_cons_self _ _) hd
      simp only [hd, if_true]
      cases ht : getTargets fs p.Path with
      | exited => exact absurd ht (getTargets_ne_exited hnf)
      | err msg =>
        have hc : children fs p = [] := by simp [children, hd, ht]
        by_cases hq : contains p.Path query = true <;>
          simp [SearchRun.after, hc, hnil, hq, List.filter_cons]
      | ok listing =>
        have hc : children fs p = listing := by simp [children, hd, ht]
        have hrl := hrec p (List.mem_cons_self _ _) hd listing ht
        simp only [hrl]
        by_cases hq : contains p.Path query = true <;>
          simp [SearchRun.after, hc, hq, List.filter_cons]
    · have hc : children fs p = [] := by simp [children, hd]
      simp only [hd, if_false]
      by_cases hq : contains p.Path query = true <;>
        simp [SearchRun.after, hc, hnil, hq, List.filter_cons]

/-- In a static tree, with more fuel than the height of the directories among
`paths`, `search` returns and has sent the matching entries of the pre-order
traversal, in that order. -/
theorem search_eq_preorder {fs : FileSys} {height : String → Nat} (hs : Static fs height)
    (query : String) :
    ∀ (fuel n : Nat) (paths : List File), Walkable fs height n paths → n < fuel →
      search fs query fuel paths
        = .done ((preorder fs fuel paths).filter (fun f => contains f.Path query)) := by
  intro fuel
  induction fuel with
  | zero => intro n paths _ hn; omega
  | succ fuel ih =>
    intro n paths hw hn
    rw [search_succ, preorder_succ]
    apply searchLoop_done fs query (search fs query fuel) (preorder fs fuel) paths
    · intro p hp hd
      exact (hw p hp hd).1
    · intro p hp hd listing ht
      have hlt := (hw p hp hd).2
      exact ih (height p.Path) listing (getTargets_walkable hs ht) (by omega)
    · cases fuel <;> simp [preorder]

/-- More depth than the height of the directories does not change the traversal. -/
theorem preorder_stable {fs : FileSys} {height : String → Nat} (hs : Static fs height) :
    ∀ (a n : Nat) (paths : List File), Walkable fs height n paths → n < a →
      preorder fs (a + 1) paths = preorder fs a paths := by
  intro a
  induction a with
  | zero => intro n paths _ hn; omega
  | succ a ih =>
    intro n paths hw hn
    rw [preorder_succ, preorder_succ fs a]
    induction paths with
    | nil => simp
    | cons g rest ihl =>
      have hrest := ihl (hw.sublist (fun f hf => List.mem_cons_of_mem _ hf))
      simp only [List.flatMap_cons, hrest]
      congr 2
      by_cases hd : g.Typ = TypeDirectory
      · have hlt := (hw g (List.mem_cons_self _ _) hd).2
        exact ih (height g.Path) (children fs g) (children_walkable hs g) (by omega)
      · have hc : children fs g = [] := by simp [children, hd]
        rw [hc]
        cases a <;> simp [preorder]

theorem preorder_stable_le {fs : FileSys} {height : String → Nat} (hs : Static fs height)
    (n : Nat) (paths : List File) (hw : Walkable fs height n paths) :
    ∀ (a b : Nat), n < a → a ≤ b → preorder fs b paths = preorder fs a paths := by
  intro a b ha hab
  induction b with
  | zero =>
    have : a = 0 := by omega
    subst this
    rfl
  | succ b ih =>
    by_cases hb : a = b + 1
    · subst hb; rfl
    · rw [preorder_stable hs b n paths hw (by omega)]
      exact ih (by omega)

/-! ### The entries under a directory -/

theorem Under.trans {fs : FileSys} {root : String} {d f : File} (hd : Under fs root d)
    (hdir : d.Typ = TypeDirectory) (hf : Under fs d.Path f) : Under fs root f := by
  induction hf with
  | child hl hm => exact Under.descend hd hdir hl hm
  | descend _ hdir2 hl hm ih => exact Under.descend ih hdir2 hl hm

/-- An entry is under `root` when it is in the listing of `root` or under a
directory of that listing. -/
theorem under_iff (fs : FileSys) (root : String) (f : File) :
    Under fs root f ↔
      ∃ listing, getTargets fs root = .ok listing ∧
        (f ∈ listing ∨ ∃ d ∈ listing, d.Typ = TypeDirectory ∧ Under fs d.Path f) := by
  constructor
  · intro h
    induction h with
    | child hl hm => exact ⟨_, hl, Or.inl hm⟩
    | @descend d f l2 hu hdir hl hm ih =>
      obtain ⟨listing, hroot, hcase⟩ := ih
      refine ⟨listing, hroot, Or.inr ?_⟩
      rcases hcase with hmem | ⟨d2, hd2, hdir2, hu2⟩
      · exact ⟨d, hmem, hdir, Under.child hl hm⟩
      · exact ⟨d2, hd2, hdir2, Under.descend hu2 hdir hl hm⟩
  · rintro ⟨listing, hroot, hmem | ⟨d, hd, hdir, hu⟩⟩
    · exact Under.child hroot hmem
    · exact Under.trans (Under.child hroot hd) hdir hu

/-- The entries of the traversal are the entries walked and the entries under
the directories among them. -/
theorem mem_preorder {fs : FileSys} {height : String → Nat} (hs : Static fs height) (f : File) :
    ∀ (fuel n : Nat) (paths : List File), Walkable fs height n paths → n < fuel →
      (f ∈ preorder fs fuel paths ↔
        (f ∈ paths ∨ ∃ d ∈ paths, d.Typ = TypeDirectory ∧ Under fs d.Path f)) := by
  intro fuel
  induction fuel with
  | zero => intro n paths _ hn; omega
  | succ fuel ih =>
    intro n paths hw hn
    rw [preorder_succ]
    simp only [List.mem_flatMap, List.mem_cons]
    have key : ∀ g ∈ paths, (f ∈ preorder fs fuel (children fs g) ↔
        (g.Typ = TypeDirectory ∧ Under fs g.Path f)) := by
      intro g hg
      by_cases hd : g.Typ = TypeDirectory
      · have hlt := (hw g hg hd).2
        rw [ih (height g.Path) (children fs g) (children_walkable hs g) (by omega), under_iff]
        cases ht : getTargets fs g.Path with
        | ok listing =>
          have hc : children fs g = listing := by simp [children, hd, ht]
          simp [hc, hd]
        | err msg =>
          have hc : children fs g = [] := by simp [children, hd, ht]
          simp [hc]
        | exited =>
          have hc : children fs g = [] := by simp [children, hd, ht]
          simp [hc]
      · have hc : children fs g = [] := by simp [children, hd]
        rw [hc]
        cases fuel <;> simp [preorder, hd]
    constructor
    · rintro ⟨g, hg, rfl | hin⟩
      · exact Or.inl hg
      · exact Or.inr ⟨g, hg, (key g hg).1 hin⟩
    · rintro (hmem | ⟨d, hd, hdir, hu⟩)
      · exact ⟨f, hmem, Or.inl rfl⟩
      · exact ⟨d, hd, Or.inr ((key d hd).2 ⟨hdir, hu⟩)⟩

/-! ### Several workers -/

theorem flatten_eq_nil_of_all_nil {α : Type} (seqs : List (List α)) (h : ∀ s ∈ seqs, s = []) :
    seqs.flatten = [] := by
  induction seqs with
  | nil => rfl
  | cons s rest ih =>
    have hs := h s (List.mem_cons_self _ _)
    subst hs
    simpa using ih (fun t ht => h t (List.mem_cons_of_mem _ ht))

/-- Whatever the arrival order, the stream carries the entries of all workers,
each as often as it was sent. -/
theorem Interleaving.perm {α : Type} {seqs : List (List α)} {merged : List α}
    (h : Interleaving seqs merged) : merged.Perm seqs.flatten := by
  induction h with
  | nil seqs hall => rw [flatten_eq_nil_of_all_nil seqs hall]
  | cons before after x s merged _ ih =>
    simp only [List.flatten_append, List.flatten_cons] at ih ⊢
    have h1 : (x :: merged).Perm (x :: (before.flatten ++ (s ++ after.flatten))) :=
      List.Perm.cons x ih
    exact h1.trans (List.perm_middle).symm

/-- One arrival order always exists: the workers one after the other. -/
theorem Interleaving.sequential {α : Type} (seqs : List (List α)) :
    Interleaving seqs seqs.flatten := by
  induction seqs with
  | nil => exact Interleaving.nil [] (by simp)
  | cons s rest ih =>
    induction s with
    | nil =>
      simp only [List.flatten_cons, List.nil_append]
      clear * - ih
      generalize rest.flatten = m at ih
      induction ih with
      | nil seqs hall =>
        exact Interleaving.nil _ (by
          intro t ht
          rcases List.mem_cons.1 ht with rfl | ht
          · rfl
          · exact hall t ht)
      | cons before after x s merged _ ih2 =>
        exact Interleaving.cons ([] :: before) after x s merged ih2
    | cons x s ihs =>
      exact Interleaving.cons [] rest x s _ ihs

theorem chunk_flatten {α : Type} (arr : List α) (draws : List Nat) (chunks : List (List α))
    (h : chunk arr draws = .ret chunks) : chunks.flatten = arr := by
  by_cases hlen : arr.length = 0
  · have : arr = [] := List.length_eq_zero.1 hlen
    subst this
    simp [chunk] at h
    subst h
    rfl
  · cases hc : randInt (ceilFloat64 (arr.length / 2)) draws with
    | ret c =>
      obtain ⟨-, r, hr, hj, -⟩ := chunk_of_draw arr draws c hc
      rw [h] at hr
      cases hr
      exact hj
    | panicked => simp [chunk, hlen, hc] at h
    | looping => simp [chunk, hlen, hc] at h

/-! ## Facts about `filepath.Join` and `strings.Contains` -/

namespace filepath

/-- The library functions evaluated on some paths. -/
theorem Clean_eval :
    Clean "/a//b/./c/../d/" = "/a/b/d" ∧ Clean "a/../../b" = "../b" ∧ Clean "/../a" = "/a" ∧
    Clean "/" = "/" ∧ Clean "a/.." = "." ∧ Join "/" "a" = "/a" ∧
    Join "/tmp/x/" "d" = "/tmp/x/d" ∧ Join "" "d" = "d" ∧ Join "../.." "d" = "../../d" ∧
    Join "/r/fruits" "apple-pie.txt" = "/r/fruits/apple-pie.txt" := by
  decide

theorem splitSep_ne_nil (p : List Char) : splitSep p ≠ [] := by
  induction p with
  | nil => simp [splitSep]
  | cons c cs ih =>
    unfold splitSep
    by_cases hc : c = '/'
    · simp [hc]
    · simp only [hc, if_false]
      cases h : splitSep cs <;> simp

theorem splitSep_append (a b : List Char) :
    splitSep (a ++ '/' :: b) = splitSep a ++ splitSep b := by
  induction a with
  | nil => simp [splitSep]
  | cons c cs ih =>
    by_cases hc : c = '/'
    · subst hc
      simp [splitSep, ih]
    · have hne := splitSep_ne_nil cs
      cases h : splitSep cs with
      | nil => exact absurd h hne
      | cons e es =>
        have ih2 : splitSep (cs ++ '/' :: b) = e :: (es ++ splitSep b) := by rw [ih, h]; rfl
        show splitSep (c :: (cs ++ '/' :: b)) = splitSep (c :: cs) ++ splitSep b
        simp only [splitSep, hc, if_false, ih2, h, List.cons_append]

theorem splitSep_of_no_sep (n : List Char) (h : '/' ∉ n) : splitSep n = [n] := by
  induction n with
  | nil => rfl
  | cons c cs ih =>
    have hc : c ≠ '/' := fun e => h (by simp [e])
    have hcs : '/' ∉ cs := fun e => h (List.mem_cons_of_mem _ e)
    simp [splitSep, hc, ih hcs]

theorem splitSep_no_sep (p : List Char) : ∀ e ∈ splitSep p, '/' ∉ e := by
  induction p with
  | nil => simp [splitSep]
  | cons c cs ih =>
    unfold splitSep
    by_cases hc : c = '/'
    · simp only [hc, if_true]
      intro e he
      rcases List.mem_cons.1 he with rfl | he
      · simp
      · exact ih e he
    · simp only [hc, if_false]
      cases h : splitSep cs with
      | nil =>
        intro e he
        simp only [List.mem_singleton] at he
        subst he
        simpa using Ne.symm hc
      | cons e0 es =>
        rw [h] at ih
        intro e he
        rcases List.mem_cons.1 he with rfl | he
        · have := ih e0 (List.mem_cons_self _ _)
          simp only [List.mem_cons, not_or]
          exact ⟨Ne.symm hc, this⟩
        · exact ih e (List.mem_cons_of_mem _ he)

theorem joinSep_cons_cons (e e2 : List Char) (es : List (List Char)) :
    joinSep (e :: e2 :: es) = e ++ '/' :: joinSep (e2 :: es) := rfl

theorem joinSep_snoc (out : List (List Char)) (n : List Char) (h : out ≠ []) :
    joinSep (out ++ [n]) = joinSep out ++ '/' :: n := by
  induction out with
  | nil => exact absurd rfl h
  | cons e es ih =>
    cases es with
    | nil => simp [joinSep]
    | cons e2 es2 =>
      have := ih (by simp)
      simp only [List.cons_append] at this ⊢
      rw [joinSep_cons_cons, this, joinSep_cons_cons]
      simp

theorem splitSep_joinSep (out : List (List Char)) (hne : out ≠ [])
    (h : ∀ e ∈ out, '/' ∉ e) : splitSep (joinSep out) = out := by
  induction out with
  | nil => exact absurd rfl hne
  | cons e es ih =>
    cases es with
    | nil => simpa [joinSep] using splitSep_of_no_sep e (h e (by simp))
    | cons e2 es2 =>
      rw [joinSep_cons_cons, splitSep_append, splitSep_of_no_sep e (h e (by simp)),
        ih (by simp) (fun x hx => h x (List.mem_cons_of_mem _ hx))]
      rfl

theorem cleanStep_real (rooted : Bool) (out : List (List Char)) (e : List Char)
    (h : Real e) : cleanStep rooted out e = out ++ [e] := by
  obtain ⟨h1, -, h3, h4⟩ := h
  simp [cleanStep, h1, h3, h4]

theorem Kept.elems {rooted : Bool} {out : List (List Char)} (h : Kept rooted out) :
    ∀ e ∈ out, e ≠ [] ∧ '/' ∉ e := by
  induction h with
  | nil => simp
  | real out e _ hr ih =>
    intro x hx
    rcases List.mem_append.1 hx with hx | hx
    · exact ih x hx
    · simp only [List.mem_singleton] at hx
      subst hx
      exact ⟨hr.1, hr.2.1⟩
  | dots out _ _ _ ih =>
    intro x hx
    rcases List.mem_append.1 hx with hx | hx
    · exact ih x hx
    · simp only [List.mem_singleton] at hx
      subst hx
      decide

theorem Kept.dropLast {rooted : Bool} {out : List (List Char)} (h : Kept rooted out) :
    Kept rooted out.dropLast := by
  cases h with
  | nil => exact Kept.nil
  | real out e hk _ => simpa using hk
  | dots out _ hk _ => simpa using hk

/-- Every step of `Clean` keeps the element list in shape. -/
theorem Kept.cleanStep_kept {rooted : Bool} {out : List (List Char)} (h : Kept rooted out)
    (e : List Char) (he : '/' ∉ e) : Kept rooted (cleanStep rooted out e) := by
  unfold cleanStep
  by_cases h1 : e = [] ∨ e = ['.']
  · simp only [h1, if_true]; exact h
  · simp only [h1, if_false]
    by_cases h2 : e = ['.', '.']
    · simp only [h2, if_true]
      cases hl : out.getLast? with
      | none =>
        cases rooted with
        | true => simpa using h
        | false => simpa using Kept.dots out rfl h (Or.inl hl)
      | some top =>
        by_cases ht : top = ['.', '.']
        · cases rooted with
          | true => simpa [ht] using h
          | false =>
            simp only [ht, if_true]
            simpa using Kept.dots out rfl h (Or.inr (by rw [hl, ht]))
        · simp only [ht, if_false]
          exact h.dropLast
    · simp only [h2, if_false]
      refine Kept.real out e h ⟨?_, he, ?_, h2⟩
      · exact fun h0 => h1 (Or.inl h0)
      · exact fun h0 => h1 (Or.inr h0)

theorem Kept.foldl {rooted : Bool} (elems : List (List Char)) :
    ∀ out, Kept rooted out → (∀ e ∈ elems, '/' ∉ e) →
      Kept rooted (elems.foldl (cleanStep rooted) out) := by
  induction elems with
  | nil => intro out h _; exact h
  | cons e es ih =>
    intro out h hall
    exact ih _ (h.cleanStep_kept e (hall e (by simp))) (fun x hx => hall x (List.mem_cons_of_mem _ hx))

/-- Cleaning an element list that is in shape changes nothing. -/
theorem Kept.fixed {rooted : Bool} {out : List (List Char)} (h : Kept rooted out) :
    out.foldl (cleanStep rooted) [] = out := by
  induction h with
  | nil => rfl
  | real out e _ hr ih =>
    rw [List.foldl_append, ih]
    simp [cleanStep_real rooted out e hr]
  | dots out hroot _ hlast ih =>
    rw [List.foldl_append, ih]
    subst hroot
    rcases hlast with hl | hl <;> simp [cleanStep, hl]

theorem joinSep_head {rooted : Bool} {out : List (List Char)} (h : Kept rooted out)
    (hne : out ≠ []) : ∃ c rest, joinSep out = c :: rest ∧ c ≠ '/' := by
  cases out with
  | nil => exact absurd rfl hne
  | cons e es =>
    obtain ⟨he1, he2⟩ := h.elems e (by simp)
    cases e with
    | nil => exact absurd rfl he1
    | cons c cs =>
      have hc : c ≠ '/' := fun hc => he2 (by simp [hc])
      cases es with
      | nil => exact ⟨c, cs, rfl, hc⟩
      | cons e2 es2 => exact ⟨c, _, rfl, hc⟩

theorem render_rooted {rooted : Bool} {out : List (List Char)} (h : Kept rooted out)
    (hne : out ≠ []) (tail : List Char) :
    decide ((render rooted out ++ tail).head? = some '/') = rooted := by
  cases rooted with
  | true => simp [render]
  | false =>
    obtain ⟨c, rest, hj, hc⟩ := joinSep_head h hne
    simp [render, hj, hc]

theorem render_ne_nil {rooted : Bool} {out : List (List Char)} (h : Kept rooted out)
    (hne : out ≠ []) : render rooted out ≠ [] := by
  cases rooted with
  | true => simp [render]
  | false =>
    obtain ⟨c, rest, hj, -⟩ := joinSep_head h hne
    simp [render, hj]

theorem splitSep_render {rooted : Bool} {out : List (List Char)} (h : Kept rooted out)
    (hne : out ≠ []) :
    (splitSep (render rooted out)).foldl (cleanStep rooted) [] = out := by
  have hs := splitSep_joinSep out hne (fun e he => (h.elems e he).2)
  cases rooted with
  | true =>
    simp only [render, if_true, splitSep, hs, List.foldl_cons]
    have : cleanStep true [] [] = [] := by simp [cleanStep]
    rw [this]
    exact h.fixed
  | false =>
    simp only [render, Bool.false_eq_true, if_false, hs]
    exact h.fixed

theorem render_snoc (rooted : Bool) (out : List (List Char)) (n : List Char) (hne : out ≠ []) :
    render rooted (out ++ [n]) = render rooted out ++ '/' :: n := by
  cases rooted <;> simp [render, joinSep_snoc out n hne]

/-- What `Clean` returns on a non-empty path. -/
theorem Clean_data (path : String) (hne : path.data ≠ []) (rooted : Bool)
    (hr : decide (path.data.head? = some '/') = rooted) (out : List (List Char))
    (ho : (splitSep path.data).foldl (cleanStep rooted) [] = out) (hout : render rooted out ≠ []) :
    (Clean path).data = render rooted out := by
  have hp : path ≠ "" := by
    intro h
    apply hne
    rw [h]
  unfold Clean
  simp only [hp, if_false, hr, ho, hout]

/-- A clean path joined with a valid name is the path, the separator and the
name, and is clean again. -/
theorem Join_clean (p name : String) (hp : IsClean p) (hn : ValidName name) :
    (Join p name).data = p.data ++ '/' :: name.data ∧ IsClean (Join p name) := by
  obtain ⟨rooted, out, hk, hne, hdata⟩ := hp
  have hreal : Real name.data := hn
  have hpne : p.data ≠ [] := by rw [hdata]; exact render_ne_nil hk hne
  have hp0 : p ≠ "" := by
    intro h
    apply hpne
    rw [h]
  have hd : (p ++ "/" ++ name).data = render rooted out ++ '/' :: name.data := by
    simp [String.data_append, hdata]
  have hk2 : Kept rooted (out ++ [name.data]) := Kept.real out _ hk hreal
  have hfold : (splitSep (p ++ "/" ++ name).data).foldl (cleanStep rooted) []
      = out ++ [name.data] := by
    rw [hd, splitSep_append, List.foldl_append, splitSep_render hk hne,
      splitSep_of_no_sep _ hreal.2.1]
    simp [cleanStep_real rooted out _ hreal]
  have hclean := Clean_data (p ++ "/" ++ name) (by rw [hd]; simp) rooted
    (by rw [hd]; exact render_rooted hk hne _) (out ++ [name.data]) hfold
    (render_ne_nil hk2 (by simp))
  have hjoin : Join p name = Clean (p ++ "/" ++ name) := by
    simp [Join, hp0]
  rw [hjoin]
  refine ⟨?_, rooted, out ++ [name.data], hk2, by simp, hclean⟩
  rw [hclean, render_snoc rooted out _ hne, hdata]

/-- Whatever the directory path, joining it with a valid name gives a clean path. -/
theorem Join_isClean (dir name : String) (hn : ValidName name) : IsClean (Join dir name) := by
  have hreal : Real name.data := hn
  by_cases hd : dir = ""
  · subst hd
    have hne : name ≠ "" := by
      intro h
      apply hreal.1
      rw [h]
    have hjoin : Join "" name = Clean name := by simp [Join, hne]
    have hk : Kept false [name.data] := by simpa using Kept.real [] _ Kept.nil hreal
    have hrooted : decide (name.data.head? = some '/') = false := by
      cases hdat : name.data with
      | nil => simp
      | cons c cs =>
        have : c ≠ '/' := fun hc => hreal.2.1 (by rw [hdat]; simp [hc])
        simp [this]
    have hfold : (splitSep name.data).foldl (cleanStep false) [] = [name.data] := by
      rw [splitSep_of_no_sep _ hreal.2.1]
      simp [cleanStep_real false [] _ hreal]
    have hclean := Clean_data name hreal.1 false hrooted [name.data] hfold
      (render_ne_nil hk (by simp))
    rw [hjoin]
    exact ⟨false, [name.data], hk, by simp, hclean⟩
  · have hjoin : Join dir name = Clean (dir ++ "/" ++ name) := by simp [Join, hd]
    have hdata : (dir ++ "/" ++ name).data = dir.data ++ '/' :: name.data := by
      simp [String.data_append]
    generalize hr : decide ((dir ++ "/" ++ name).data.head? = some '/') = rooted
    have hk : Kept rooted ((splitSep dir.data).foldl (cleanStep rooted) []) :=
      Kept.foldl _ _ Kept.nil (splitSep_no_sep _)
    have hk2 := Kept.real _ _ hk hreal
    have hfold : (splitSep (dir ++ "/" ++ name).data).foldl (cleanStep rooted) []
        = (splitSep dir.data).foldl (cleanStep rooted) [] ++ [name.data] := by
      rw [hdata, splitSep_append, List.foldl_append, splitSep_of_no_sep _ hreal.2.1]
      simp [cleanStep_real rooted _ _ hreal]
    have hclean := Clean_data (dir ++ "/" ++ name) (by rw [hdata]; simp) rooted hr _ hfold
      (render_ne_nil hk2 (by simp))
    rw [hjoin]
    exact ⟨rooted, _, hk2, by simp, hclean⟩

end filepath

namespace strings

/-- The substring test evaluated: it distinguishes upper and lower case. -/
theorem Contains_eval :
    Contains "/r/fruits/apple-pie.txt" "apple" = true ∧
    Contains "/r/fruits/apple-pie.txt" "Apple" = false ∧
    Contains "abc" "" = true ∧ Contains "" "" = true ∧ Contains "" "a" = false := by
  decide

theorem containsChars_iff (s substr : List Char) :
    containsChars s substr = true ↔ substr <:+: s := by
  induction s with
  | nil =>
    cases substr <;> simp [containsChars]
  | cons c s ih =>
    rw [containsChars, Bool.or_eq_true, ih, List.infix_cons_iff, List.isPrefixOf_iff_prefix]

/-- `strings.Contains` is the substring relation on the characters. -/
theorem Contains_iff (s substr : String) :
    Contains s substr = true ↔ substr.data <:+: s.data :=
  containsChars_iff _ _

end strings

/-! ## The example tree -/

theorem demo_static : Static demoFS demoHeight := by
  constructor
  · intro dir entries e hr he hd
    simp only [demoFS] at hr
    split_ifs at hr with h1 h2 h3
    · cases hr
      subst h1
      simp only [List.mem_cons, List.mem_singleton, List.not_mem_nil, or_false] at he
      rcases he with rfl | rfl | rfl | rfl <;> first | (simp at hd; done) | decide
    · cases hr
      subst h2
      simp only [List.mem_cons, List.mem_singleton, List.not_mem_nil, or_false] at he
      subst he
      simp at hd
  · intro dir entries e hr he hd
    simp only [demoFS] at hr
    split_ifs at hr with h1 h2 h3
    · cases hr
      subst h1
      simp only [List.mem_cons, List.mem_singleton, List.not_mem_nil, or_false] at he
      rcases he with rfl | rfl | rfl | rfl <;> first | (simp at hd; done) | decide
    · cases hr
      subst h2
      simp only [List.mem_cons, List.mem_singleton, List.not_mem_nil, or_false] at he
      subst he
      simp at hd

theorem demo_walkable : Walkable demoFS demoHeight 2 demoListing := by
  unfold Walkable
  decide

/-- The example tree, evaluated: the listing of `/r`, the search for `apple`
(the unreadable `locked` is skipped), and the traversal order. -/
theorem demo_eval :
    getTargets demoFS "/r" = .ok demoListing ∧
    search demoFS "apple" 3 demoListing
      = .done [⟨"apple.txt", "/r/apple.txt", TypeFile⟩,
          ⟨"apple-pie.txt", "/r/fruits/apple-pie.txt", TypeFile⟩] ∧
    search demoFS "r" 1 demoListing = .outOfFuel ∧
    (preorder demoFS 3 demoListing).map (fun f => f.Name)
      = ["apple.txt", "banana.txt", "fruits", "apple-pie.txt", "locked"] := by
  decide

/-! ## Claims about the search -/

/-- C6 (pre-order within a worker): in a static tree, one call of `search` on a
chunk returns and has sent the pre-order depth-first traversal of the chunk's
entries and their readable subtrees, filtered by "path contains query".  For
every entry `d` of the chunk the sequence is: the matches of the entries before
`d`, then `d` itself if it matches, then the matches from inside `d`, then the
matches of the entries after `d`. -/
theorem search_preorder (fs : FileSys) (height : String → Nat) (hs : Static fs height)
    (query : String) (fuel n : Nat) (paths : List File)
    (hw : Walkable fs height n paths) (hn : n < fuel) :
    search fs query fuel paths
        = .done ((preorder fs fuel paths).filter (fun f => contains f.Path query)) ∧
    ∀ (before : List File) (d : File) (later : List File), paths = before ++ d :: later →
      ∃ a b c, search fs query fuel before = .done a ∧
        search fs query fuel (children fs d) = .done b ∧
        search fs query fuel later = .done c ∧
        search fs query fuel paths
          = .done (a ++ (if contains d.Path query then [d] else []) ++ b ++ c) := by
  refine ⟨search_eq_preorder hs query fuel n paths hw hn, ?_⟩
  intro before d later hsplit
  subst hsplit
  have hwb : Walkable fs height n before := hw.sublist (fun f hf => by simp [hf])
  have hwl : Walkable fs height n later := hw.sublist (fun f hf => by simp [hf])
  have hwc : ∃ m, m < fuel ∧ m + 1 < fuel + 1 ∧ Walkable fs height m (children fs d) ∧
      (preorder fs fuel (children fs d) = preorder fs (fuel - 1) (children fs d)) := by
    by_cases hd : d.Typ = TypeDirectory
    · have hlt := (hw d (by simp) hd).2
      refine ⟨height d.Path, by omega, by omega, children_walkable hs d, ?_⟩
      obtain ⟨k, rfl⟩ : ∃ k, fuel = k + 1 := ⟨fuel - 1, by omega⟩
      exact preorder_stable hs k (height d.Path) _ (children_walkable hs d) (by omega)
    · have hc : children fs d = [] := by simp [children, hd]
      refine ⟨0, by omega, by omega, ?_, ?_⟩
      · rw [hc]; intro f hf; simp at hf
      · rw [hc]
        cases fuel <;> cases (0 - 1) <;> simp [preorder]
  obtain ⟨m, hm, -, hwm, hstab⟩ := hwc
  refine ⟨_, _, _, search_eq_preorder hs query fuel n before hwb hn,
    search_eq_preorder hs query fuel m _ hwm hm,
    search_eq_preorder hs query fuel n later hwl hn, ?_⟩
  rw [search_eq_preorder hs query fuel n _ hw hn, preorder_append, hstab]
  obtain ⟨k, rfl⟩ : ∃ k, fuel = k + 1 := ⟨fuel - 1, by omega⟩
  rw [preorder_succ fs k (d :: later)]
  simp only [List.flatMap_cons, Nat.add_sub_cancel, ← preorder_succ]
  by_cases hq : contains d.Path query = true <;>
    simp [hq, List.filter_cons, List.filter_append]

/-- Witness for C6: the example tree, query `apple`. -/
theorem search_preorder_witness :
    (Static demoFS demoHeight ∧ Walkable demoFS demoHeight 2 demoListing ∧ 2 < 3) ∧
    (search demoFS "apple" 3 demoListing
        = .done ((preorder demoFS 3 demoListing).filter (fun f => contains f.Path "apple")) ∧
      ∀ (before : List File) (d : File) (later : List File),
        demoListing = before ++ d :: later →
        ∃ a b c, search demoFS "apple" 3 before = .done a ∧
          search demoFS "apple" 3 (children demoFS d) = .done b ∧
          search demoFS "apple" 3 later = .done c ∧
          search demoFS "apple" 3 demoListing
            = .done (a ++ (if contains d.Path "apple" then [d] else []) ++ b ++ c)) :=
  ⟨⟨demo_static, demo_walkable, by decide⟩,
    search_preorder demoFS demoHeight demo_static "apple" 3 2 demoListing demo_walkable
      (by decide)⟩

/-- C1 (completeness independent of chunking): in a static tree, for every
query and every chunking `chunk` can return for the listing of `root`, every
worker returns, and whatever the arrival order the entries published by all
workers together are, each as often as the tree holds it, the entries of the
traversal of the whole tree whose path `contains` the query; an entry is
published exactly when it is under `root` and the query is a substring of its
path; and when no entry occurs twice in the tree none is published twice.  The right-hand sides do
not mention the chunking. -/
theorem search_complete (fs : FileSys) (height : String → Nat) (hs : Static fs height)
    (root query : String) (listing : List File) (draws : List Nat)
    (chunks : List (List File)) (fuel : Nat)
    (hroot : getTargets fs root = .ok listing) (hchunk : chunk listing draws = .ret chunks)
    (hfuel : height root < fuel) :
    ∃ sent : List (List File),
      chunks.map (search fs query fuel) = sent.map SearchRun.done ∧
      ∀ published, Interleaving sent published →
        published.Perm ((preorder fs fuel listing).filter (fun f => contains f.Path query)) ∧
        (∀ f, f ∈ published ↔ (Under fs root f ∧ query.data <:+: f.Path.data)) ∧
        ((preorder fs fuel listing).Nodup → published.Nodup) := by
  have hflat := chunk_flatten listing draws chunks hchunk
  have hw : Walkable fs height (height root) listing := getTargets_walkable hs hroot
  refine ⟨chunks.map (fun c => (preorder fs fuel c).filter (fun f => contains f.Path query)),
    ?_, ?_⟩
  · rw [List.map_map]
    apply List.map_congr_left
    intro c hc
    have hwc : Walkable fs height (height root) c := hw.sublist (fun f hf => by
      rw [← hflat]
      exact List.mem_flatten.2 ⟨c, hc, hf⟩)
    simpa using search_eq_preorder hs query fuel (height root) c hwc hfuel
  · intro published hint
    have hperm : published.Perm
        ((preorder fs fuel listing).filter (fun f => contains f.Path query)) := by
      have h1 := hint.perm
      have h2 : (chunks.map (fun c =>
          (preorder fs fuel c).filter (fun f => contains f.Path query))).flatten
          = (preorder fs fuel listing).filter (fun f => contains f.Path query) := by
        rw [← hflat, preorder_flatten, List.filter_flatten, List.map_map]
        rfl
      rwa [h2] at h1
    refine ⟨hperm, ?_, ?_⟩
    · intro f
      rw [hperm.mem_iff, List.mem_filter, mem_preorder hs f fuel (height root) listing hw hfuel,
        under_iff, ← strings.Contains_iff]
      simp [hroot, contains]
    · intro hnd
      exact hperm.nodup_iff.2 (hnd.filter _)

/-- Witness for C1: the example tree, query `apple`, the four entries of `/r`
and the draw `1`. -/
theorem search_complete_witness :
    (Static demoFS demoHeight ∧ getTargets demoFS "/r" = .ok demoListing ∧
      chunk demoListing [1] = .ret [demoListing] ∧ demoHeight "/r" < 3) ∧
    ∃ sent : List (List File),
      [demoListing].map (search demoFS "apple" 3) = sent.map SearchRun.done ∧
      ∀ published, Interleaving sent published →
        published.Perm
          ((preorder demoFS 3 demoListing).filter (fun f => contains f.Path "apple")) ∧
        (∀ f, f ∈ published ↔ (Under demoFS "/r" f ∧ "apple".data <:+: f.Path.data)) ∧
        ((preorder demoFS 3 demoListing).Nodup → published.Nodup) :=
  ⟨⟨demo_static, by decide, by decide, by decide⟩,
    search_complete demoFS demoHeight demo_static "/r" "apple" demoListing [1] [demoListing] 3
      (by decide) (by decide) (by decide)⟩

theorem getTargets_err {fs : FileSys} {dir msg : String} (h : getTargets fs dir = .err msg) :
    fs.isFile dir = false ∧ fs.ReadDir dir = .error msg := by
  unfold getTargets at h
  by_cases hf : fs.isFile dir = true
  · simp [hf] at h
  · have hf2 : fs.isFile dir = false := by simpa using hf
    cases hr : fs.ReadDir dir with
    | error e =>
      simp [hf2, hr] at h
      exact ⟨hf2, by rw [h]⟩
    | ok files => simp [hf2, hr] at h

theorem getTargets_withEmptyListing_same {fs : FileSys} {dir : String}
    (hf : fs.isFile dir = false) : getTargets (withEmptyListing fs dir) dir = .ok [] := by
  simp [getTargets, withEmptyListing, hf]

theorem getTargets_withEmptyListing_other {fs : FileSys} {dir p : String} (hp : p ≠ dir) :
    getTargets (withEmptyListing fs dir) p = getTargets fs p := by
  simp [getTargets, withEmptyListing, hp]

/-- C3 (listing failures are recoverable): when `getTargets` fails on `dir` with
the error of `os.ReadDir`, a call of `search` that meets a directory entry with
that path sends nothing from inside it and goes on with the entries after it;
and, for every list of entries, query and depth, the run of `search` is the run
on the same tree with the listing of `dir` replaced by an empty listing. -/
theorem search_skips_unreadable (fs : FileSys) (query dir msg : String)
    (hfail : getTargets fs dir = .err msg) :
    (∀ (fuel : Nat) (d : File) (rest : List File), d.Typ = TypeDirectory → d.Path = dir →
      search fs query (fuel + 1) (d :: rest)
        = (search fs query (fuel + 1) rest).after
            (if contains d.Path query then [d] else [])) ∧
    (∀ (fuel : Nat) (paths : List File),
      search fs query fuel paths = search (withEmptyListing fs dir) query fuel paths) := by
  obtain ⟨hfile, -⟩ := getTargets_err hfail
  constructor
  · intro fuel d rest hd hp
    rw [search_succ, search_succ, searchLoop]
    simp [hd, hp, hfail]
  · intro fuel
    induction fuel with
    | zero => intro paths; cases paths <;> rfl
    | succ fuel ih =>
      intro paths
      rw [search_succ, search_succ]
      induction paths with
      | nil => rfl
      | cons p rest ihl =>
        rw [searchLoop, searchLoop, ihl]
        by_cases hd : p.Typ = TypeDirectory
        · by_cases hp : p.Path = dir
          · have h1 : getTargets (withEmptyListing fs dir) p.Path = .ok [] := by
              rw [hp]; exact getTargets_withEmptyListing_same hfile
            have h2 : getTargets fs p.Path = .err msg := by rw [hp]; exact hfail
            have h3 : search (withEmptyListing fs dir) query fuel [] = .done [] := by
              cases fuel <;> rfl
            simp [hd, h1, h2, h3]
          · rw [getTargets_withEmptyListing_other hp]
            simp only [hd, if_true]
            cases getTargets fs p.Path with
            | ok subPaths => simp only [ih subPaths]
            | err m => rfl
            | exited => rfl
        · simp [hd]

/-- Witness for C3: the directory `locked` of the example tree. -/
theorem search_skips_unreadable_witness :
    getTargets demoFS "/r/locked" = .err "permission denied" ∧
    ((∀ (fuel : Nat) (d : File) (rest : List File), d.Typ = TypeDirectory →
      d.Path = "/r/locked" →
      search demoFS "apple" (fuel + 1) (d :: rest)
        = (search demoFS "apple" (fuel + 1) rest).after
            (if contains d.Path "apple" then [d] else [])) ∧
    (∀ (fuel : Nat) (paths : List File),
      search demoFS "apple" fuel paths
        = search (withEmptyListing demoFS "/r/locked") "apple" fuel paths)) :=
  ⟨by decide, search_skips_unreadable demoFS "apple" "/r/locked" "permission denied" (by decide)⟩

theorem getTargets_mem {fs : FileSys} {dir : String} {listing : List File} {f : File}
    (h : getTargets fs dir = .ok listing) (hf : f ∈ listing) :
    ∃ files e, fs.ReadDir dir = .ok files ∧ e ∈ files ∧ f = mkTarget dir e := by
  unfold getTargets at h
  by_cases hfile : fs.isFile dir = true
  · simp [hfile] at h
  · have hf2 : fs.isFile dir = false := by simpa using hfile
    cases hr : fs.ReadDir dir with
    | error e => simp [hf2, hr] at h
    | ok files =>
      simp only [hf2, hr, Bool.false_eq_true, if_false, Targets.ok.injEq] at h
      subst h
      obtain ⟨e, he, rfl⟩ := List.mem_map.1 hf
      exact ⟨files, e, rfl, he, rfl⟩

/-- Below a directory with a clean path every path starts with the path of the
directory and is clean. -/
theorem under_prefix {fs : FileSys} (hnames : ProperNames fs) {dir : String}
    (hclean : filepath.IsClean dir) {f : File} (h : Under fs dir f) :
    dir.data <+: f.Path.data ∧ filepath.IsClean f.Path := by
  induction h with
  | child hl hm =>
    obtain ⟨files, e, hr, he, rfl⟩ := getTargets_mem hl hm
    obtain ⟨hdata, hc⟩ := filepath.Join_clean dir e.Name hclean (hnames dir files e hr he)
    refine ⟨?_, hc⟩
    show dir.data <+: (filepath.Join dir e.Name).data
    rw [hdata]
    exact List.prefix_append _ _
  | @descend d f listing _ _ hl hm ih =>
    obtain ⟨hpre, hcd⟩ := ih
    obtain ⟨files, e, hr, he, rfl⟩ := getTargets_mem hl hm
    obtain ⟨hdata, hc⟩ := filepath.Join_clean d.Path e.Name hcd (hnames d.Path files e hr he)
    refine ⟨?_, hc⟩
    show dir.data <+: (filepath.Join d.Path e.Name).data
    rw [hdata]
    exact hpre.trans (List.prefix_append _ _)

theorem demo_names : ProperNames demoFS := by
  intro dir entries e hr he
  simp only [demoFS] at hr
  split_ifs at hr with h1 h2 h3
  · cases hr
    simp only [List.mem_cons, List.mem_singleton, List.not_mem_nil, or_false] at he
    rcases he with rfl | rfl | rfl | rfl <;> (unfold ValidName; decide)
  · cases hr
    simp only [List.mem_cons, List.mem_singleton, List.not_mem_nil, or_false] at he
    subst he
    unfold ValidName
    decide

/-- C10 (matching is inherited down the tree): in a static tree whose listings
report valid names, when `search` visits a directory entry `d` whose path is
built as `getTargets` builds it and contains the query, `search` returns, and
every entry under `d` has a path that contains the query and is among the
entries sent. -/
theorem match_inherited (fs : FileSys) (height : String → Nat) (hs : Static fs height)
    (hnames : ProperNames fs) (query : String) (fuel n : Nat) (paths : List File)
    (hw : Walkable fs height n paths) (hn : n < fuel) (d : File)
    (hvisit : d ∈ preorder fs fuel paths) (hdir : d.Typ = TypeDirectory) (hbuilt : Built d)
    (hq : contains d.Path query = true) :
    ∃ sent, search fs query fuel paths = .done sent ∧
      ∀ f, Under fs d.Path f → contains f.Path query = true ∧ f ∈ sent := by
  refine ⟨_, search_eq_preorder hs query fuel n paths hw hn, ?_⟩
  intro f hf
  obtain ⟨parent, name, hname, hpath⟩ := hbuilt
  have hclean : filepath.IsClean d.Path := by
    rw [hpath]
    exact filepath.Join_isClean parent name hname
  obtain ⟨hpre, -⟩ := under_prefix hnames hclean hf
  have hmatch : contains f.Path query = true := by
    have hinf : query.data <:+: d.Path.data := (strings.Contains_iff _ _).1 hq
    exact (strings.Contains_iff _ _).2 (hinf.trans hpre.isInfix)
  refine ⟨hmatch, ?_⟩
  rw [List.mem_filter]
  refine ⟨?_, by simpa using hmatch⟩
  rw [mem_preorder hs f fuel n paths hw hn]
  rcases (mem_preorder hs d fuel n paths hw hn).1 hvisit with hd | ⟨d0, hd0, hdir0, hu⟩
  · exact Or.inr ⟨d, hd, hdir, hf⟩
  · exact Or.inr ⟨d0, hd0, hdir0, Under.trans hu hdir hf⟩

/-- Witness for C10: the directory `fruits` of the example tree and the query
`fruits`, which the name `apple-pie.txt` does not contain. -/
theorem match_inherited_witness :
    (Static demoFS demoHeight ∧ ProperNames demoFS ∧ Walkable demoFS demoHeight 2 demoListing ∧
      2 < 3 ∧ (⟨"fruits", "/r/fruits", TypeDirectory⟩ : File) ∈ preorder demoFS 3 demoListing ∧
      Built ⟨"fruits", "/r/fruits", TypeDirectory⟩ ∧
      contains "/r/fruits" "fruits" = true ∧
      Under demoFS "/r/fruits" ⟨"apple-pie.txt", "/r/fruits/apple-pie.txt", TypeFile⟩) ∧
    ∃ sent, search demoFS "fruits" 3 demoListing = .done sent ∧
      ∀ f, Under demoFS "/r/fruits" f → contains f.Path "fruits" = true ∧ f ∈ sent :=
  ⟨⟨demo_static, demo_names, demo_walkable, by decide, by decide,
      ⟨"/r", "fruits", by unfold ValidName; decide, by decide⟩, by decide,
      @Under.child demoFS "/r/fruits" [⟨"apple-pie.txt", "/r/fruits/apple-pie.txt", TypeFile⟩] _
        (by decide) (by simp)⟩,
    match_inherited demoFS demoHeight demo_static demo_names "fruits" 3 2 demoListing
      demo_walkable (by decide) ⟨"fruits", "/r/fruits", TypeDirectory⟩ (by decide) rfl
      ⟨"/r", "fruits", by unfold ValidName; decide, by decide⟩ (by decide)⟩

/-! ## Claims about the collector -/

theorem handleStream_results (asJson : Bool) (marshal : File → Except String String) :
    ∀ (received : List File) (st : Collector),
      (handleStream asJson marshal received st).results = st.results ++ received := by
  intro received
  induction received with
  | nil => intro st; simp [handleStream]
  | cons res more ih =>
    intro st
    rw [handleStream, ih]
    cases asJson
    · simp [handleEntry]
    · cases hm : marshal res <;> simp [handleEntry, hm]

theorem handleStream_text (marshal : File → Except String String) :
    ∀ (received : List File) (st : Collector),
      (handleStream false marshal received st).printed
        = st.printed ++ received.map (fun res => "[+] " ++ res.Path) := by
  intro received
  induction received with
  | nil => intro st; simp [handleStream]
  | cons res more ih =>
    intro st
    rw [handleStream, ih]
    simp [handleEntry]

theorem handleStream_json (marshal : File → Except String String) :
    ∀ (received : List File) (st : Collector),
      (handleStream true marshal received st).printed
        = st.printed ++ received.map (jsonLine marshal) := by
  intro received
  induction received with
  | nil => intro st; simp [handleStream]
  | cons res more ih =>
    intro st
    rw [handleStream, ih]
    cases hm : marshal res <;> simp [handleEntry, jsonLine, hm]

theorem handleStream_done (asJson : Bool) (marshal : File → Except String String) :
    ∀ (received : List File) (st : Collector),
      (handleStream asJson marshal received st).doneSignals = st.doneSignals + 1 := by
  intro received
  induction received with
  | nil => intro st; simp [handleStream]
  | cons res more ih =>
    intro st
    rw [handleStream, ih]
    cases asJson
    · simp [handleEntry]
    · cases hm : marshal res <;> simp [handleEntry, hm]

/-- C4 (collector accumulation): for every finite sequence of entries received
before the stream is closed, `handleStream` leaves `results` equal to that
sequence in arrival order, in text mode and in JSON mode, also when
`json.Marshal` fails on entries; in text mode it prints exactly the lines
`[+] <path>` of the received entries in the same order; in JSON mode it prints
one line per entry, the encoding or the warning; so the count reported from
`results` is the number of entries received. -/
theorem handleStream_accumulates (asJson : Bool) (marshal : File → Except String String)
    (received : List File) :
    (handleStream asJson marshal received Collector.init).results = received ∧
    (handleStream false marshal received Collector.init).printed
      = received.map (fun res => "[+] " ++ res.Path) ∧
    (handleStream true marshal received Collector.init).printed
      = received.map (jsonLine marshal) ∧
    (handleStream asJson marshal received Collector.init).results.length = received.length := by
  have hres := handleStream_results asJson marshal received Collector.init
  refine ⟨?_, ?_, ?_, ?_⟩
  · simpa [Collector.init] using hres
  · simpa [Collector.init] using handleStream_text marshal received Collector.init
  · simpa [Collector.init] using handleStream_json marshal received Collector.init
  · rw [hres]; simp [Collector.init]

/-- The collector evaluated in JSON mode with an encoder that fails on one entry. -/
theorem handleStream_eval : (handleStream true (fun f => if f.Name = "bad" then .error "boom" else .ok f.Name)
    [⟨"a", "/a", TypeFile⟩, ⟨"bad", "/bad", TypeFile⟩] Collector.init)
    = { results := [⟨"a", "/a", TypeFile⟩, ⟨"bad", "/bad", TypeFile⟩],
        printed := ["a", "\x1b[33mError marshalling /bad: boom\x1b[0m"],
        doneSignals := 1 } := by decide

/-! ## Facts about the completion protocol -/

theorem Inv.init (jobs : List Job) : Inv jobs (Sys.init jobs) := by
  constructor <;> simp [Sys.init, MainPc.phase, MainPc.unspawned]

end Bfs
